import Mathlib

/-!
Formal model of the incremental-backup core of the config-saver repository.

The Python sources are shallowly embedded as Lean functions:

- src/config_saver/lib/backup_mapager/backup_state.py (class BackupState):
  the fingerprint store, the hybrid change classifier `has_changed`, the
  post-run state update `update_file`, and the changed/deleted file sets.
- src/config_saver/lib/tar_compressor/tar_compressor.py (class TarCompressor):
  the path codec `_normalize_path` and the archive layout produced by
  `compress` (member selection, metadata record, state save).
- src/config_saver/lib/tar_compressor/tar_decompressor.py (TarDecompressor):
  the inverse path codec `_denormalize_path`.
- src/config_saver/lib/backup_mapager/backup_manager.py (BackupManager):
  the snapshot-chain locator `_find_previous_timestamp_dir`.

Modelling conventions:
- the filesystem is an explicit value: `os.stat` and whole-file reads are
  two partial observation maps (an exception raised by the OS is `none`);
- SHA-256 hashing is an abstract function from file bytes to hex strings,
  universally quantified in every theorem (`_calculate_hash` returns the
  empty string when the read fails, which is modelled explicitly);
- a Python dict is an association list with first-match lookup and
  replace-or-append assignment; Python `sorted(list(set(xs)))` is
  deduplication followed by insertion sort, and `list.sort(reverse=True)`
  is an insertion sort by descending lexicographic string order;
- `os.path.abspath`/`os.path.normpath` are the identity: theorems about the
  path codec carry hypotheses restricting inputs to normalized absolute
  paths, which is what the callers (os.walk over absolute roots) produce;
- strings are handled through their character lists, and the POSIX
  separator is the single character '/'; the metadata record of an
  incremental archive is kept structured (its JSON serialization is not
  modelled, the claims concern its fields and the member layout).
-/

/-- One record of the persisted backup state: backup_state.py keeps
`self.files[path] = {"mtime": ..., "size": ..., "hash": ...}`.  A missing
`hash` key is read back through `prev.get("hash", "")`, so the hash field is
total with the empty string as the default. -/
structure FileFingerprint where
  mtime : Int
  size : Nat
  hash : String
  deriving DecidableEq, Repr

/-- The `files` dict of a `BackupState` object: an insertion-ordered map from
absolute path to fingerprint, embedded as an association list. -/
abbrev Store := List (String × FileFingerprint)

/-- The observable filesystem during one run: `statOf` models `os.stat`
(returning modification time and size, `none` when the call raises), and
`readOf` models opening and reading the full file bytes (`none` when any
read raises OSError/IOError). -/
structure FileSys where
  statOf : String → Option (Int × Nat)
  readOf : String → Option (List Nat)

/-- First-match lookup in the files dict (`file_path in self.files` /
`self.files[file_path]`). -/
def dictLookup (files : Store) (k : String) : Option FileFingerprint :=
  match files with
  | [] => none
  | (k', v) :: rest => if k' = k then some v else dictLookup rest k

/-- Python dict assignment `self.files[k] = v`: replace the value in place
when the key is present, append otherwise. -/
def dictInsert (files : Store) (k : String) (v : FileFingerprint) : Store :=
  if ∃ kv ∈ files, kv.1 = k then
    files.map (fun kv => if kv.1 = k then (k, v) else kv)
  else files ++ [(k, v)]

/-- BackupState._calculate_hash: SHA-256 over the file bytes, with the
empty string returned when the read raises (backup_state.py lines 50-59). -/
def calculateHash (fs : FileSys) (hashFn : List Nat → String) (file_path : String) : String :=
  match fs.readOf file_path with
  | some content => hashFn content
  | none => ""

/-- BackupState.has_changed (backup_state.py lines 61-79): hybrid strategy.
No previous fingerprint, or a raising `os.stat`, classifies Changed; a
mtime/size mismatch classifies Changed without reading the content; on an
exact mtime/size match the content hash decides. -/
def hasChanged (fs : FileSys) (hashFn : List Nat → String) (files : Store)
    (file_path : String) : Bool :=
  match dictLookup files file_path with
  | none => true
  | some prev =>
    match fs.statOf file_path with
    | none => true
    | some ms =>
      if ms.1 ≠ prev.mtime ∨ ms.2 ≠ prev.size then true
      else decide (calculateHash fs hashFn file_path ≠ prev.hash)

/-- BackupState.update_file (backup_state.py lines 81-91): record
(mtime, size, hash) for one file, silently skipping the file when `os.stat`
raises. -/
def updateFile (fs : FileSys) (hashFn : List Nat → String) (files : Store)
    (file_path : String) : Store :=
  match fs.statOf file_path with
  | none => files
  | some (m, s) => dictInsert files file_path ⟨m, s, calculateHash fs hashFn file_path⟩

/-- The state written after a run: tar_compressor.py lines 228-236 iterates
`new_state.update_file` over the full resolved file list starting from a
fresh empty `BackupState`. -/
def saveStateMap (fs : FileSys) (hashFn : List Nat → String)
    (file_list : List String) : Store :=
  file_list.foldl (fun st p => updateFile fs hashFn st p) []

/-- BackupState.get_changed_files (backup_state.py lines 93-95); the Python
set is represented by the filtered list, read up to membership. -/
def getChangedFiles (fs : FileSys) (hashFn : List Nat → String) (files : Store)
    (file_list : List String) : List String :=
  file_list.filter (fun f => hasChanged fs hashFn files f)

/-- BackupState.get_deleted_files (backup_state.py lines 97-101):
set(self.files.keys()) - set(file_list), represented by the list of previous
keys outside the current list. -/
def getDeletedFiles (files : Store) (file_list : List String) : List String :=
  (files.map Prod.fst).filter (fun k => decide (k ∉ file_list))

/-- Split a character list at every '/' (the component view that
posixpath.relpath takes via `path.split(sep)`). -/
def charSplit : List Char → List (List Char)
  | [] => [[]]
  | c :: cs => if c = '/' then [] :: charSplit cs else (charSplit cs).modifyHead (fun l => c :: l)

/-- Join components with '/' (posixpath.join over plain components). -/
def charJoin : List (List Char) → List Char
  | [] => []
  | [x] => x
  | x :: xs => x ++ '/' :: charJoin xs

/-- Length of the longest common prefix of two component lists
(os.path.commonprefix on lists). -/
def commonPrefixLen : List (List Char) → List (List Char) → Nat
  | a :: as, b :: bs => if a = b then commonPrefixLen as bs + 1 else 0
  | _, _ => 0

/-- Python str.startswith: the first list is a leading segment of the
second. -/
def listStartsWith : List Char → List Char → Bool
  | [], _ => true
  | _ :: _, [] => false
  | a :: as, b :: bs => if a = b then listStartsWith as bs else false

/-- str.startswith lifted to String. -/
def strStartsWith (p s : String) : Bool := listStartsWith p.data s.data

/-- Nonempty '/'-separated components of a path string (posixpath.relpath
filters out empty strings produced by split). -/
def pathComponents (s : String) : List (List Char) :=
  (charSplit s.data).filter (fun c => decide (c ≠ []))

/-- posixpath.relpath(path, start) for already-normalized absolute inputs
(os.path.abspath is the identity on those): common-component count, then
'..' for each remaining start component followed by the remaining path
components. -/
def relpath (path start : String) : String :=
  let path_list := pathComponents path
  let start_list := pathComponents start
  let i := commonPrefixLen start_list path_list
  let rel_list := List.replicate (start_list.length - i) ['.', '.'] ++ path_list.drop i
  if rel_list = [] then "." else ⟨charJoin rel_list⟩

/-- posixpath.join for two operands: an absolute right operand wins, and a
separator is inserted unless one is already present. -/
def pathJoin (a b : String) : String :=
  if b.data.head? = some '/' then b
  else if a.data = [] ∨ a.data.getLast? = some '/' then a ++ b
  else a ++ "/" ++ b

/-- Python slicing s[n:] on strings. -/
def strDrop (n : Nat) (s : String) : String := ⟨s.data.drop n⟩

/-- Python s.lstrip(os.sep): remove every leading '/'. -/
def lstripSlash (s : String) : String := ⟨s.data.dropWhile (fun c => decide (c = '/'))⟩

/-- TarCompressor._normalize_path (tar_compressor.py lines 36-52): when the
absolute path starts with the configured home-directory string, rewrite it
to "home/user" joined with relpath(path, home); otherwise drop a leading
separator.  abspath/normpath are modelled as the identity (inputs are
normalized absolute paths). -/
def normalizePath (user_home : String) (file_path : String) : String :=
  let abs_path := file_path
  if strStartsWith user_home abs_path then
    pathJoin (pathJoin "home" "user") (relpath abs_path user_home)
  else
    if abs_path.data.head? = some '/' then strDrop 1 abs_path else abs_path

/-- TarDecompressor._denormalize_path (tar_decompressor.py lines 25-37):
an archived name starting with "home/user/" is re-rooted at the restoring
user's home; any other name becomes absolute again. -/
def denormalizePath (user_home : String) (archived_path : String) : String :=
  if strStartsWith "home/user/" archived_path || strStartsWith "home/user\\" archived_path then
    pathJoin user_home (strDrop 10 archived_path)
  else
    pathJoin "/" (lstripSlash archived_path)

/-- Python sorted(list(setOf xs)): deduplicate, then sort ascending. -/
def pySortedSet (xs : List String) : List String :=
  List.insertionSort (fun a b => a ≤ b) xs.dedup

/-- The change-metadata record written as the first member of an
incremental archive (tar_compressor.py lines 173-181), kept structured. -/
structure Metadata where
  backup_type : String
  changed_files : List String
  deleted_files : List String
  deriving DecidableEq, Repr

/-- One member of the produced tar archive: either the synthetic metadata
record or a file member with its source path and archive name. -/
inductive TarEntry where
  | meta (m : Metadata)
  | file (srcPath : String) (arcname : String)
  deriving DecidableEq, Repr

/-- Source paths of the file members of an archive, in member order. -/
def filePaths : List TarEntry → List String
  | [] => []
  | TarEntry.meta _ :: es => filePaths es
  | TarEntry.file p _ :: es => p :: filePaths es

/-- TarCompressor.compress (tar_compressor.py lines 148-238) after the file
list has been resolved: member selection (full list on a first backup,
changed files otherwise), the metadata record for incremental runs, file
members in sorted-path order, and the freshly rebuilt post-run state.
File contents and the progress branch (identical member layout) are not
modelled. -/
def compress (user_home : String) (fs : FileSys) (hashFn : List Nat → String)
    (prevLoaded : Bool) (prevFiles : Store) (file_list : List String) :
    List TarEntry × Store :=
  let is_first_backup := !prevLoaded
  let files_to_compress : List String :=
    if is_first_backup then pySortedSet file_list
    else pySortedSet (getChangedFiles fs hashFn prevFiles file_list)
  let deleted_files : List String :=
    if is_first_backup then []
    else pySortedSet (getDeletedFiles prevFiles file_list)
  let metaEntries : List TarEntry :=
    if is_first_backup then []
    else [TarEntry.meta ⟨"incremental", files_to_compress, deleted_files⟩]
  let fileEntries := files_to_compress.map (fun p => TarEntry.file p (normalizePath user_home p))
  let new_state := file_list.foldl (fun st p => updateFile fs hashFn st p) []
  (metaEntries ++ fileEntries, new_state)

/-- Python str < (strict lexicographic comparison by code point). -/
def lexLt : List Char → List Char → Bool
  | _, [] => false
  | [], _ :: _ => true
  | a :: as, b :: bs => if a < b then true else if a = b then lexLt as bs else false

/-- One insertion step of a descending sort by Python string comparison. -/
def sortDescInsert (x : String) : List String → List String
  | [] => [x]
  | y :: ys => if lexLt y.data x.data then x :: y :: ys else y :: sortDescInsert x ys

/-- list.sort(reverse=True) on strings. -/
def sortDesc : List String → List String
  | [] => []
  | x :: xs => sortDescInsert x (sortDesc xs)

/-- The sibling filter of BackupManager._find_previous_timestamp_dir
(backup_manager.py lines 64-77): directory entries lexicographically below
the current timestamp whose name has length 15 or 21 and contains a dash,
and whose directory holds a .backup-state.json file.  `isDir` and
`hasState` are the two filesystem observations the code makes per entry. -/
def tsCandidates (entries : List String) (isDir hasState : String → Bool)
    (current_timestamp : String) : List String :=
  entries.filter (fun e =>
    isDir e && lexLt e.data current_timestamp.data
      && (e.length == 15 || e.length == 21) && e.data.contains '-' && hasState e)

/-- BackupManager._find_previous_timestamp_dir (backup_manager.py lines
51-87): sort the candidates descending and return the base directory joined
with the first, or none when there are no candidates. -/
def findPreviousTimestampDir (base_cfg_dir : String) (entries : List String)
    (isDir hasState : String → Bool) (current_timestamp : String) : Option String :=
  match sortDesc (tsCandidates entries isDir hasState current_timestamp) with
  | [] => none
  | d :: _ => some (pathJoin base_cfg_dir d)

/-- Modelled from the spec: a name in the fixed-width timestamp format,
YYYYMMDD-HHMMSS (15 characters) or YYYYMMDD-HHMMSS-mmm (21 characters),
digits everywhere except the fixed dash positions.  Used only to compare
the locator's basic shape check against the spec's format requirement. -/
def specFixedWidthTimestamp (s : String) : Bool :=
  (s.data.length == 15
    && (s.data.enum.all fun ic => if ic.1 == 8 then ic.2 == '-' else ic.2.isDigit))
  || (s.data.length == 21
    && (s.data.enum.all fun ic =>
        if ic.1 == 8 || ic.1 == 15 then ic.2 == '-' else ic.2.isDigit))

/-- Modelled from the spec: a path is "under the configured home directory"
when it lies in the home subtree, i.e. it is the home directory itself or
extends it past a separator.  Used only to compare the code's string-prefix
test against the spec's notion. -/
def specUnderHome (home p : String) : Bool :=
  strStartsWith (home ++ "/") p || p == home

/-- Concrete filesystem used by witnesses: one readable file "a" with
mtime 5, size 3 and bytes [1, 2]. -/
def fsA : FileSys :=
  ⟨fun q => if q = "a" then some (5, 3) else none,
   fun q => if q = "a" then some [1, 2] else none⟩

/-- Concrete hash function used by witnesses. -/
def hfA : List Nat → String := fun c => if c = [1, 2] then "h12" else "other"

/-- Witness filesystem where "a" is stat-able but nothing is readable. -/
def fsB : FileSys :=
  ⟨fun q => if q = "a" then some (1, 1) else none, fun _ => none⟩

/-- Counterexample filesystem: file "f" can be stat-ed (mtime 0, size 0)
but every read raises. -/
def fsUnreadable : FileSys :=
  ⟨fun q => if q = "f" then some (0, 0) else none, fun _ => none⟩

/-- Witness filesystem for the zero-change incremental run: one file "a"
with fingerprint matching its previous record. -/
def fsC : FileSys :=
  ⟨fun q => if q = "a" then some (1, 2) else none,
   fun q => if q = "a" then some [7] else none⟩

/-- Witness hash function matching fsC. -/
def hfC : List Nat → String := fun c => if c = [7] then "h" else "x"

/-! From here on: the theorems settling the claims, with their helper
lemmas. -/

/-- Replacing the value stored under key k leaves lookups of other keys
untouched. -/
theorem dictLookup_map_replace (k p : String) (v : FileFingerprint) (hp : k ≠ p) :
    ∀ l : Store,
      dictLookup (l.map fun kv => if kv.1 = k then (k, v) else kv) p = dictLookup l p := by
  intro l
  induction l with
  | nil => rfl
  | cons kv tl ih =>
    obtain ⟨a, b⟩ := kv
    by_cases ha : a = k
    · subst ha
      have hhead : (if ((a, b) : String × FileFingerprint).1 = a then (a, v) else (a, b))
          = (a, v) := by simp
      rw [List.map_cons, hhead]
      simp [dictLookup, hp, ih]
    · have hhead : (if ((a, b) : String × FileFingerprint).1 = k then (k, v) else (a, b))
        = (a, b) := by simp [ha]
      rw [List.map_cons, hhead]
      simp [dictLookup, ih]

/-- When key k is present, the in-place replacement makes lookup of k read
back the new value. -/
theorem dictLookup_map_replace_self (k : String) (v : FileFingerprint) :
    ∀ l : Store, (∃ kv ∈ l, kv.1 = k) →
      dictLookup (l.map fun kv => if kv.1 = k then (k, v) else kv) k = some v := by
  intro l
  induction l with
  | nil => rintro ⟨kv, hmem, _⟩; cases hmem
  | cons kv tl ih =>
    obtain ⟨a, b⟩ := kv
    intro hex
    by_cases ha : a = k
    · subst ha
      have hhead : (if ((a, b) : String × FileFingerprint).1 = a then (a, v) else (a, b))
          = (a, v) := by simp
      rw [List.map_cons, hhead]
      simp [dictLookup]
    · have hhead : (if ((a, b) : String × FileFingerprint).1 = k then (k, v) else (a, b))
        = (a, b) := by simp [ha]
      rw [List.map_cons, hhead]
      have htl : ∃ kv ∈ tl, kv.1 = k := by
        rcases hex with ⟨kv', hmem, hkey⟩
        rcases List.mem_cons.mp hmem with heq | hmem'
        · exact absurd (by rw [heq] at hkey; exact hkey) ha
        · exact ⟨kv', hmem', hkey⟩
      simp [dictLookup, ha, ih htl]

/-- Appending a fresh binding at the end behaves like dict assignment of a
new key: the new key reads the new value, others are untouched. -/
theorem dictLookup_append_single (k p : String) (v : FileFingerprint) :
    ∀ l : Store, (¬ ∃ kv ∈ l, kv.1 = k) →
      dictLookup (l ++ [(k, v)]) p = if k = p then some v else dictLookup l p := by
  intro l
  induction l with
  | nil => intro _; simp [dictLookup]
  | cons kv tl ih =>
    obtain ⟨a, b⟩ := kv
    intro hnex
    have hak : ¬ a = k := fun h => hnex ⟨(a, b), List.mem_cons_self _ _, h⟩
    have htl : ¬ ∃ kv ∈ tl, kv.1 = k := fun ⟨kv', hmem, hkey⟩ =>
      hnex ⟨kv', List.mem_cons_of_mem _ hmem, hkey⟩
    by_cases hap : a = p
    · subst hap
      have hkp : ¬ k = a := fun h => hak h.symm
      simp [dictLookup, hkp]
    · simp [dictLookup, hap, ih htl]

/-- Lookup after a dict assignment: the assigned key reads back the new
value, every other key is untouched (holds for both the replace and the
append branch of `dictInsert`). -/
theorem dictLookup_dictInsert (st : Store) (k : String) (v : FileFingerprint)
    (p : String) :
    dictLookup (dictInsert st k v) p = if k = p then some v else dictLookup st p := by
  by_cases hex : ∃ kv ∈ st, kv.1 = k
  · rw [dictInsert, if_pos hex]
    by_cases hkp : k = p
    · subst hkp
      rw [if_pos rfl]
      exact dictLookup_map_replace_self k v st hex
    · rw [if_neg hkp]
      exact dictLookup_map_replace k p v hkp st
  · rw [dictInsert, if_neg hex]
    exact dictLookup_append_single k p v st hex

/-- C1: classification by BackupState.has_changed.  (i) a path with no
stored fingerprint is Changed; (ii) when a fingerprint exists and the
current mtime or size differs, the result is Changed for every possible
content-read map and hash function — the extensional rendering of "without
computing a content hash"; (iii) when mtime and size both match exactly and
the file is readable, the result is Changed iff the current content hash
differs from the stored one. -/
theorem has_changed_hybrid_classification (fs : FileSys)
    (hashFn : List Nat → String) (files : Store) (p : String) :
    (dictLookup files p = none → hasChanged fs hashFn files p = true) ∧
    (∀ fp m s rd hf, dictLookup files p = some fp → fs.statOf p = some (m, s) →
      (m ≠ fp.mtime ∨ s ≠ fp.size) →
      hasChanged ⟨fs.statOf, rd⟩ hf files p = true) ∧
    (∀ fp c, dictLookup files p = some fp →
      fs.statOf p = some (fp.mtime, fp.size) → fs.readOf p = some c →
      (hasChanged fs hashFn files p = true ↔ hashFn c ≠ fp.hash)) := by
  refine ⟨?_, ?_, ?_⟩
  · intro h
    simp [hasChanged, h]
  · intro fp m s rd hf hlook hstat hne
    simp [hasChanged, hlook, hstat, hne]
  · intro fp c hlook hstat hread
    simp [hasChanged, hlook, hstat, calculateHash, hread]

/-- Witness for C1 at concrete inputs: a new file is Changed, an mtime
mismatch is Changed even with all reads failing, and on an exact
mtime/size match the hash comparison decides. -/
theorem has_changed_hybrid_classification_witness :
    hasChanged fsA hfA [] "a" = true ∧
    hasChanged ⟨fsA.statOf, fun _ => none⟩ hfA [("a", ⟨4, 3, "h12"⟩)] "a" = true ∧
    (hasChanged fsA hfA [("a", ⟨5, 3, "zzz"⟩)] "a" = true ↔ hfA [1, 2] ≠ "zzz") :=
  ⟨(has_changed_hybrid_classification fsA hfA [] "a").1 (by decide),
   (has_changed_hybrid_classification fsA hfA [("a", ⟨4, 3, "h12"⟩)] "a").2.1
     ⟨4, 3, "h12"⟩ 5 3 (fun _ => none) hfA (by decide) (by decide) (by decide),
   (has_changed_hybrid_classification fsA hfA [("a", ⟨5, 3, "zzz"⟩)] "a").2.2
     ⟨5, 3, "zzz"⟩ [1, 2] (by decide) (by decide) (by decide)⟩

/-- C8 counterexample: a file that is unreadable (every read raises) while
a previous fingerprint exists is classified Unchanged when os.stat still
succeeds with matching mtime and size and the stored hash is the empty
string — the sentinel _calculate_hash records when a read fails — because
the failed current hash ("") compares equal to it. -/
theorem has_changed_unreadable_empty_hash_cex :
    fsUnreadable.readOf "f" = none ∧
    dictLookup [("f", ⟨0, 0, ""⟩)] "f" = some ⟨0, 0, ""⟩ ∧
    hasChanged fsUnreadable hfA [("f", ⟨0, 0, ""⟩)] "f" = false :=
  ⟨rfl, by decide, by decide⟩

/-- C8 amended: with a stored fingerprint present, a vanished file (os.stat
raises) is always Changed; an unreadable file (stat succeeds, read raises)
is Changed exactly when mtime or size differs or the stored hash is not the
empty-string sentinel.  The run is never aborted (the classifier is a total
function). -/
theorem has_changed_unreadable_conservative (fs : FileSys)
    (hashFn : List Nat → String) (files : Store) (p : String)
    (fp : FileFingerprint) (hlook : dictLookup files p = some fp) :
    (fs.statOf p = none → hasChanged fs hashFn files p = true) ∧
    (∀ m s, fs.statOf p = some (m, s) → fs.readOf p = none →
      (hasChanged fs hashFn files p = true ↔
        (m ≠ fp.mtime ∨ s ≠ fp.size ∨ fp.hash ≠ ""))) := by
  constructor
  · intro hstat
    simp [hasChanged, hlook, hstat]
  · intro m s hstat hread
    by_cases hms : m ≠ fp.mtime ∨ s ≠ fp.size
    · simp only [hasChanged, hlook, hstat, if_pos hms]
      constructor
      · intro _
        tauto
      · intro _
        trivial
    · push_neg at hms
      obtain ⟨hm, hs⟩ := hms
      subst hm
      subst hs
      simp [hasChanged, hlook, hstat, calculateHash, hread, ne_comm]

/-- Witness for C8 amended: an unreadable file with a real stored hash is
classified Changed. -/
theorem has_changed_unreadable_conservative_witness :
    hasChanged fsUnreadable hfA [("f", ⟨0, 0, "h"⟩)] "f" = true :=
  ((has_changed_unreadable_conservative fsUnreadable hfA [("f", ⟨0, 0, "h"⟩)] "f"
      ⟨0, 0, "h"⟩ (by decide)).2 0 0 (by decide) rfl).mpr (by decide)

/-- C9: the deleted-file set is exactly the set difference between the
previous store's keys and the current file list, including the two empty
boundary cases. -/
theorem get_deleted_files_set_difference (files : Store) (file_list : List String) :
    (getDeletedFiles files file_list).toFinset
        = (files.map Prod.fst).toFinset \ file_list.toFinset ∧
    getDeletedFiles files [] = files.map Prod.fst ∧
    getDeletedFiles [] file_list = [] := by
  refine ⟨?_, ?_, rfl⟩
  · ext x
    simp [getDeletedFiles, List.mem_filter]
  · simp [getDeletedFiles]

/-- C10: classification is read-only and well-scoped.  The embedding of
has_changed/get_changed_files/get_deleted_files takes the fingerprint map
as a plain input and returns only the classification result — the Python
bodies contain no assignment to self.files — and, provably, the changed
files form a subset of the input list while the deleted files are disjoint
from it. -/
theorem classification_subset_disjoint (fs : FileSys) (hashFn : List Nat → String)
    (files : Store) (file_list : List String) :
    (∀ p ∈ getChangedFiles fs hashFn files file_list, p ∈ file_list) ∧
    (∀ p ∈ getDeletedFiles files file_list, p ∉ file_list) := by
  constructor
  · intro p hp
    exact (List.mem_filter.mp hp).1
  · intro p hp
    have h := (List.mem_filter.mp hp).2
    simpa using h

/-- Witness for C10: a new file "a" is in the changed set and inside the
file list; the stale key "c" is in the deleted set and outside the list. -/
theorem classification_subset_disjoint_witness :
    "a" ∈ (["a", "b"] : List String) ∧ "c" ∉ (["a", "b"] : List String) :=
  ⟨(classification_subset_disjoint fsA hfA [("c", ⟨0, 0, ""⟩)] ["a", "b"]).1 "a" (by decide),
   (classification_subset_disjoint fsA hfA [("c", ⟨0, 0, ""⟩)] ["a", "b"]).2 "c" (by decide)⟩

/-- Lookup through one update_file call: the updated key becomes present
exactly when its stat succeeds; other keys are untouched. -/
theorem dictLookup_updateFile (fs : FileSys) (hashFn : List Nat → String)
    (st : Store) (q p : String) :
    dictLookup (updateFile fs hashFn st q) p ≠ none ↔
      (p = q ∧ fs.statOf q ≠ none) ∨ dictLookup st p ≠ none := by
  rcases hstat : fs.statOf q with _ | ⟨m, s⟩
  · simp [updateFile, hstat]
  · simp only [updateFile, hstat]
    rw [dictLookup_dictInsert]
    by_cases hpq : q = p
    · subst hpq
      simp [hstat]
    · have hqp : ¬ p = q := fun h => hpq h.symm
      simp [hpq, hqp, hstat]

/-- Lookup through the post-run state fold: a key is present exactly when
it is in the processed list with a succeeding stat, or was already in the
accumulator. -/
theorem dictLookup_foldl_update (fs : FileSys) (hashFn : List Nat → String) :
    ∀ (l : List String) (st : Store) (p : String),
      dictLookup (l.foldl (fun st q => updateFile fs hashFn st q) st) p ≠ none ↔
        ((p ∈ l ∧ fs.statOf p ≠ none) ∨ dictLookup st p ≠ none) := by
  intro l
  induction l with
  | nil =>
    intro st p
    simp
  | cons q tl ih =>
    intro st p
    rw [List.foldl_cons, ih]
    constructor
    · rintro (⟨hmem, hstat⟩ | h)
      · exact Or.inl ⟨List.mem_cons_of_mem _ hmem, hstat⟩
      · rcases (dictLookup_updateFile fs hashFn st q p).mp h with ⟨hpq, hstat⟩ | h'
        · subst hpq
          exact Or.inl ⟨List.mem_cons_self _ _, hstat⟩
        · exact Or.inr h'
    · rintro (⟨hmem, hstat⟩ | h)
      · rcases List.mem_cons.mp hmem with heq | hmem'
        · subst heq
          exact Or.inr ((dictLookup_updateFile fs hashFn st p p).mpr (Or.inl ⟨rfl, hstat⟩))
        · exact Or.inl ⟨hmem', hstat⟩
      · exact Or.inr ((dictLookup_updateFile fs hashFn st q p).mpr (Or.inr h))

/-- C2: after every run, full or incremental, the saved fingerprint state
holds an entry exactly for each path of the resolved file list whose stat
succeeds (every currently existing listed file, not merely the changed
ones), and no entry for any other path — the state is rebuilt from an empty
map, so deleted files recorded previously do not carry over. -/
theorem saved_state_covers_existing_files (user_home : String) (fs : FileSys)
    (hashFn : List Nat → String) (prevLoaded : Bool) (prevFiles : Store)
    (file_list : List String) (p : String) :
    dictLookup (compress user_home fs hashFn prevLoaded prevFiles file_list).2 p ≠ none
      ↔ p ∈ file_list ∧ fs.statOf p ≠ none := by
  have h := dictLookup_foldl_update fs hashFn file_list [] p
  constructor
  · intro hne
    rcases h.mp hne with hgood | hbad
    · exact hgood
    · exact absurd rfl hbad
  · intro hgood
    exact h.mpr (Or.inl hgood)

/-- C7 counterexample: a per-file read failure during the post-run state
update does NOT omit the file.  File "a" of fsB can be stat-ed (mtime 1,
size 1) but its read raises; update_file still records it, with the
empty-string sentinel hash that _calculate_hash returns on the swallowed
read error, so the saved snapshot contains an entry for it. -/
theorem update_file_unreadable_recorded_cex :
    fsB.statOf "a" = some (1, 1) ∧
    fsB.readOf "a" = none ∧
    dictLookup (saveStateMap fsB hfA ["a"]) "a" = some ⟨1, 1, ""⟩ :=
  ⟨rfl, rfl, by decide⟩

/-- C7 amended: only an os.stat failure omits the file from the new
snapshot — update_file then leaves the map untouched (no abort: the update
is a total function), the saved state equals the one computed with the
failing file removed from the list, and the file is absent from the
snapshot.  A read failure under a succeeding stat is swallowed inside the
hash computation and the file is recorded with mtime, size and the
empty-string sentinel hash.  In every case the entries of all other files
are unaffected by the one update. -/
theorem update_file_error_handling (fs : FileSys)
    (hashFn : List Nat → String) (file_list : List String) (p : String) :
    (fs.statOf p = none →
      (∀ st, updateFile fs hashFn st p = st) ∧
      saveStateMap fs hashFn file_list
        = saveStateMap fs hashFn (file_list.filter (fun q => decide (q ≠ p))) ∧
      dictLookup (saveStateMap fs hashFn file_list) p = none) ∧
    (∀ m s, fs.statOf p = some (m, s) → fs.readOf p = none →
      ∀ st, dictLookup (updateFile fs hashFn st p) p = some ⟨m, s, ""⟩) ∧
    (∀ st q, q ≠ p → dictLookup (updateFile fs hashFn st p) q = dictLookup st q) := by
  refine ⟨?_, ?_, ?_⟩
  · intro hp
    have hupd : ∀ st, updateFile fs hashFn st p = st := by
      intro st
      simp [updateFile, hp]
    refine ⟨hupd, ?_, ?_⟩
    · have main : ∀ (l : List String) (st : Store),
          l.foldl (fun st q => updateFile fs hashFn st q) st
            = (l.filter (fun q => decide (q ≠ p))).foldl
                (fun st q => updateFile fs hashFn st q) st := by
        intro l
        induction l with
        | nil => intro st; rfl
        | cons q tl ih =>
          intro st
          by_cases hq : q = p
          · subst hq
            have hfil : (q :: tl).filter (fun x => decide (x ≠ q))
                = tl.filter (fun x => decide (x ≠ q)) := by simp
            rw [List.foldl_cons, hupd st, hfil, ih]
          · have hfil : (q :: tl).filter (fun x => decide (x ≠ p))
                = q :: tl.filter (fun x => decide (x ≠ p)) := by simp [hq]
            rw [hfil, List.foldl_cons, List.foldl_cons, ih]
      exact main file_list []
    · have h := dictLookup_foldl_update fs hashFn file_list [] p
      by_contra hne
      rcases h.mp hne with ⟨_, hs⟩ | hd
      · exact hs hp
      · exact hd rfl
  · intro m s hstat hread st
    simp only [updateFile, hstat]
    rw [dictLookup_dictInsert]
    simp [calculateHash, hread]
  · intro st q hqp
    rcases hstat : fs.statOf p with _ | ⟨m, s⟩
    · simp [updateFile, hstat]
    · simp only [updateFile, hstat]
      rw [dictLookup_dictInsert]
      exact if_neg (fun h => hqp h.symm)

/-- Witness for C7 amended: file "b" of fsB fails to stat and is omitted
(the state over the two-element list equals the state without "b"), while
the stat-able but unreadable file "a" is recorded with the sentinel
hash. -/
theorem update_file_error_handling_witness :
    ((∀ st, updateFile fsB hfA st "b" = st) ∧
      saveStateMap fsB hfA ["a", "b"]
        = saveStateMap fsB hfA (["a", "b"].filter (fun q => decide (q ≠ "b"))) ∧
      dictLookup (saveStateMap fsB hfA ["a", "b"]) "b" = none) ∧
    (∀ st, dictLookup (updateFile fsB hfA st "a") "a" = some ⟨1, 1, ""⟩) :=
  ⟨(update_file_error_handling fsB hfA ["a", "b"] "b").1 (by decide),
   (update_file_error_handling fsB hfA ["a", "b"] "a").2.1 1 1 (by decide) rfl⟩

/-- String append acts as list append on the character data. -/
theorem strData_append (s t : String) : (s ++ t).data = s.data ++ t.data := by
  cases s
  cases t
  rfl

/-- Rebuilding a string from its character data is the identity. -/
theorem strMk_data (s : String) : (⟨s.data⟩ : String) = s := rfl

/-- Splitting never yields the empty list of components. -/
theorem charSplit_ne_nil (cs : List Char) : charSplit cs ≠ [] := by
  induction cs with
  | nil => simp [charSplit]
  | cons c cs' ih =>
    by_cases hc : c = '/'
    · simp [charSplit, hc]
    · rcases hsp : charSplit cs' with _ | ⟨y, ys⟩
      · exact absurd hsp ih
      · simp [charSplit, hc, hsp]

/-- Splitting distributes over a separator placed between two character
lists. -/
theorem charSplit_append (a b : List Char) :
    charSplit (a ++ '/' :: b) = charSplit a ++ charSplit b := by
  induction a with
  | nil => simp [charSplit]
  | cons c a' ih =>
    by_cases hc : c = '/'
    · subst hc
      simp [charSplit, ih]
    · have hstep : charSplit (c :: a' ++ '/' :: b)
          = (charSplit (a' ++ '/' :: b)).modifyHead (fun l => c :: l) := by
        rw [List.cons_append]
        simp [charSplit, hc]
      have hstep2 : charSplit (c :: a') = (charSplit a').modifyHead (fun l => c :: l) := by
        simp [charSplit, hc]
      rw [hstep, ih, hstep2]
      rcases hsp : charSplit a' with _ | ⟨y, ys⟩
      · exact absurd hsp (charSplit_ne_nil a')
      · simp [List.modifyHead]

/-- Join is a left inverse of split. -/
theorem charJoin_charSplit (cs : List Char) : charJoin (charSplit cs) = cs := by
  induction cs with
  | nil => rfl
  | cons c cs' ih =>
    rcases hsp : charSplit cs' with _ | ⟨y, ys⟩
    · exact absurd hsp (charSplit_ne_nil cs')
    · rw [hsp] at ih
      by_cases hc : c = '/'
      · subst hc
        simp only [charSplit, if_pos rfl, hsp]
        show '/' :: charJoin (y :: ys) = '/' :: cs'
        rw [ih]
      · simp only [charSplit, if_neg hc, hsp, List.modifyHead]
        cases ys with
        | nil =>
          show c :: y = c :: cs'
          rw [show charJoin [y] = y from rfl] at ih
          rw [ih]
        | cons z zs =>
          show (c :: y) ++ '/' :: charJoin (z :: zs) = c :: cs'
          rw [List.cons_append]
          rw [show y ++ '/' :: charJoin (z :: zs) = charJoin (y :: z :: zs) from rfl, ih]

/-- str.startswith holds for any extension of the tested string. -/
theorem listStartsWith_append_self (l t : List Char) :
    listStartsWith l (l ++ t) = true := by
  induction l with
  | nil => rfl
  | cons c l' ih => simp [listStartsWith, ih]

/-- The common prefix of a list with any extension of itself is the whole
list. -/
theorem commonPrefixLen_append_self (as bs : List (List Char)) :
    commonPrefixLen as (as ++ bs) = as.length := by
  induction as with
  | nil =>
    cases bs with
    | nil => rfl
    | cons b bs' => rfl
  | cons a as' ih => simp [commonPrefixLen, ih]

/-- A character list none of whose split components is empty does not start
with the separator. -/
theorem head_ne_slash_of_no_empty_component (cs : List Char)
    (h : [] ∉ charSplit cs) : cs.head? ≠ some '/' := by
  cases cs with
  | nil => simp
  | cons c cs' =>
    intro hc
    simp only [List.head?_cons, Option.some.injEq] at hc
    subst hc
    exact h (by simp [charSplit])

/-- posixpath.relpath recovers the suffix when the path extends the start
directory past a separator and the suffix has no empty component (no
leading, trailing or doubled separator). -/
theorem relpath_concat (home rest : String) (h : [] ∉ charSplit rest.data) :
    relpath (home ++ "/" ++ rest) home = rest := by
  have hdata : (home ++ "/" ++ rest).data = home.data ++ '/' :: rest.data := by
    rw [strData_append, strData_append, List.append_assoc]
    rfl
  have hfilter : (charSplit rest.data).filter (fun c => decide (c ≠ []))
      = charSplit rest.data := by
    rw [List.filter_eq_self]
    intro a ha
    have : a ≠ [] := fun heq => h (heq ▸ ha)
    simpa using this
  have hcomps : pathComponents (home ++ "/" ++ rest)
      = pathComponents home ++ charSplit rest.data := by
    rw [pathComponents, hdata, charSplit_append, List.filter_append, hfilter]
    rfl
  simp only [relpath, hcomps, commonPrefixLen_append_self, Nat.sub_self,
    List.replicate_zero, List.nil_append, List.drop_left]
  rw [if_neg (charSplit_ne_nil rest.data), charJoin_charSplit]

/-- TarCompressor._normalize_path on a path genuinely inside the home
directory: the result is "home/user/" followed by the path relative to
home. -/
theorem normalizePath_under (home rest : String) (h : [] ∉ charSplit rest.data) :
    normalizePath home (home ++ "/" ++ rest) = "home/user/" ++ rest := by
  have hsw : strStartsWith home (home ++ "/" ++ rest) = true := by
    rw [strStartsWith, strData_append, strData_append, List.append_assoc]
    exact listStartsWith_append_self home.data _
  simp only [normalizePath, hsw, if_true]
  rw [relpath_concat home rest h]
  have hju : pathJoin "home" "user" = "home/user" := by decide
  rw [hju]
  have hhead : ¬ rest.data.head? = some '/' := head_ne_slash_of_no_empty_component rest.data h
  rw [pathJoin, if_neg hhead,
    if_neg (by decide : ¬(("home/user" : String).data = []
      ∨ ("home/user" : String).data.getLast? = some '/'))]
  rw [show ("home/user" : String) ++ "/" = "home/user/" from by decide]

/-- C5 counterexample: the code tests "under the home directory" with
str.startswith on the raw strings, so a path that merely shares the home
string as a character prefix — /home/alicebob/x against home /home/alice —
is not under the home directory yet is NOT returned with only its leading
separator stripped: it is rewritten through the home branch into
"home/user/../alicebob/x". -/
theorem normalize_path_prefix_collision_cex :
    specUnderHome "/home/alice" "/home/alicebob/x" = false ∧
    normalizePath "/home/alice" "/home/alicebob/x" = "home/user/../alicebob/x" ∧
    normalizePath "/home/alice" "/home/alicebob/x" ≠ strDrop 1 "/home/alicebob/x" :=
  ⟨by decide, by decide, by decide⟩

/-- C5 amended: the branch test is a string-prefix comparison against the
home directory.  For a path genuinely inside home the result is
"home/user/" followed by the path relative to home; for a path of which the
home string is not even a character prefix, the result is the absolute path
with its leading separator stripped.  (A path sharing the home string
prefix without being inside home also takes the home branch, as the
counterexample records.) -/
theorem normalize_path_encode_cases :
    (∀ home rest : String, [] ∉ charSplit rest.data →
      normalizePath home (home ++ "/" ++ rest) = "home/user/" ++ rest) ∧
    (∀ home p : String, strStartsWith home p = false → p.data.head? = some '/' →
      normalizePath home p = strDrop 1 p) := by
  constructor
  · exact normalizePath_under
  · intro home p h1 h2
    simp [normalizePath, h1, h2]

/-- Witness for C5 amended: the home file /home/alice/.bashrc encodes to
home/user/.bashrc, and the outside path /etc/hosts encodes to etc/hosts. -/
theorem normalize_path_encode_cases_witness :
    normalizePath "/home/alice" ("/home/alice" ++ "/" ++ ".bashrc")
        = "home/user/" ++ ".bashrc" ∧
    normalizePath "/home/alice" "/etc/hosts" = strDrop 1 "/etc/hosts" :=
  ⟨normalize_path_encode_cases.1 "/home/alice" ".bashrc" (by decide),
   normalize_path_encode_cases.2 "/home/alice" "/etc/hosts" (by decide) (by decide)⟩

/-- C6: decodePath after encodePath re-roots a path from the original home
into the restoring user's home: for every suffix with no empty path
component and every restoring home that is nonempty and has no trailing
separator, decoding the encoding of home/rest yields newHome/rest. -/
theorem decode_encode_reroots_home (home newHome rest : String)
    (hrest : [] ∉ charSplit rest.data)
    (hne : newHome.data ≠ []) (hlast : newHome.data.getLast? ≠ some '/') :
    denormalizePath newHome (normalizePath home (home ++ "/" ++ rest))
      = newHome ++ "/" ++ rest := by
  rw [normalizePath_under home rest hrest]
  have hsw : strStartsWith "home/user/" ("home/user/" ++ rest) = true := by
    rw [strStartsWith, strData_append]
    exact listStartsWith_append_self _ _
  simp only [denormalizePath, hsw, Bool.true_or, if_true]
  have hdrop : strDrop 10 ("home/user/" ++ rest) = rest := by
    rw [strDrop, strData_append]
    rw [show (10 : Nat) = ("home/user/" : String).data.length from rfl, List.drop_left]
  rw [hdrop]
  have hhead : ¬ rest.data.head? = some '/' :=
    head_ne_slash_of_no_empty_component rest.data hrest
  rw [pathJoin, if_neg hhead, if_neg (not_or.mpr ⟨hne, hlast⟩)]

/-- Witness for C6: with original home /home/alice and restoring home
/home/bob, the file /home/alice/.bashrc round-trips to /home/bob/.bashrc. -/
theorem decode_encode_reroots_home_witness :
    denormalizePath "/home/bob" (normalizePath "/home/alice" ("/home/alice" ++ "/" ++ ".bashrc"))
      = "/home/bob" ++ "/" ++ ".bashrc" :=
  decode_encode_reroots_home "/home/alice" "/home/bob" ".bashrc"
    (by decide) (by decide) (by decide)

/-- Membership in the Python sorted-set view is membership in the original
list. -/
theorem mem_pySortedSet (xs : List String) (p : String) :
    p ∈ pySortedSet xs ↔ p ∈ xs := by
  rw [pySortedSet, List.mem_insertionSort]
  exact List.mem_dedup

/-- The Python sorted-set view is sorted ascending. -/
theorem sorted_pySortedSet (xs : List String) :
    (pySortedSet xs).Sorted (fun a b => a ≤ b) :=
  List.sorted_insertionSort _ _

/-- The source paths of a pure file-member list are the mapped paths. -/
theorem filePaths_map_file (l : List String) (arc : String → String) :
    filePaths (l.map (fun p => TarEntry.file p (arc p))) = l := by
  induction l with
  | nil => rfl
  | cons p tl ih => simp [filePaths, ih]

/-- The first component of a full-backup compress run: sorted deduplicated
file members only (the definition unfolds to this form). -/
theorem compress_fst_full (user_home : String) (fs : FileSys)
    (hashFn : List Nat → String) (prevFiles : Store) (file_list : List String) :
    (compress user_home fs hashFn false prevFiles file_list).1
      = (pySortedSet file_list).map (fun p => TarEntry.file p (normalizePath user_home p)) :=
  rfl

/-- The first component of an incremental compress run: the metadata record
followed by the sorted changed-file members. -/
theorem compress_fst_incr (user_home : String) (fs : FileSys)
    (hashFn : List Nat → String) (prevFiles : Store) (file_list : List String) :
    (compress user_home fs hashFn true prevFiles file_list).1
      = TarEntry.meta ⟨"incremental",
            pySortedSet (getChangedFiles fs hashFn prevFiles file_list),
            pySortedSet (getDeletedFiles prevFiles file_list)⟩
          :: (pySortedSet (getChangedFiles fs hashFn prevFiles file_list)).map
              (fun p => TarEntry.file p (normalizePath user_home p)) :=
  rfl

/-- C3: archive layout.  A full run (no usable previous state) produces no
metadata member and its file members are exactly the resolved file list; an
incremental run produces the metadata record as its first member — with
backup_type "incremental" and sorted changed/deleted lists matching the
classification — followed by exactly the files classified Changed in
sorted-path order; and an incremental run with no changed and no deleted
files produces only the metadata member with both lists empty. -/
theorem compress_archive_layout (user_home : String) (fs : FileSys)
    (hashFn : List Nat → String) (prevFiles : Store) (file_list : List String) :
    (∀ m : Metadata,
      TarEntry.meta m ∉ (compress user_home fs hashFn false prevFiles file_list).1) ∧
    (∀ p, p ∈ filePaths (compress user_home fs hashFn false prevFiles file_list).1
      ↔ p ∈ file_list) ∧
    (∃ chS dS : List String,
      (compress user_home fs hashFn true prevFiles file_list).1
        = TarEntry.meta ⟨"incremental", chS, dS⟩
            :: chS.map (fun p => TarEntry.file p (normalizePath user_home p)) ∧
      chS.Sorted (fun a b => a ≤ b) ∧
      (∀ p, p ∈ chS ↔ p ∈ file_list ∧ hasChanged fs hashFn prevFiles p = true) ∧
      dS.Sorted (fun a b => a ≤ b) ∧
      (∀ p, p ∈ dS ↔ p ∈ prevFiles.map Prod.fst ∧ p ∉ file_list)) ∧
    ((∀ p ∈ file_list, hasChanged fs hashFn prevFiles p = false) →
      (∀ k ∈ prevFiles.map Prod.fst, k ∈ file_list) →
      (compress user_home fs hashFn true prevFiles file_list).1
        = [TarEntry.meta ⟨"incremental", [], []⟩]) := by
  refine ⟨?_, ?_, ?_, ?_⟩
  · intro m
    rw [compress_fst_full]
    simp
  · intro p
    rw [compress_fst_full, filePaths_map_file]
    exact mem_pySortedSet file_list p
  · refine ⟨pySortedSet (getChangedFiles fs hashFn prevFiles file_list),
      pySortedSet (getDeletedFiles prevFiles file_list),
      compress_fst_incr user_home fs hashFn prevFiles file_list,
      sorted_pySortedSet _, ?_, sorted_pySortedSet _, ?_⟩
    · intro p
      rw [mem_pySortedSet, getChangedFiles, List.mem_filter]
    · intro p
      rw [mem_pySortedSet, getDeletedFiles, List.mem_filter]
      simp
  · intro hnone hkeys
    have hch : getChangedFiles fs hashFn prevFiles file_list = [] := by
      rw [getChangedFiles, List.filter_eq_nil_iff]
      intro a ha
      simp [hnone a ha]
    have hdel : getDeletedFiles prevFiles file_list = [] := by
      rw [getDeletedFiles, List.filter_eq_nil_iff]
      intro k hk
      simpa using hkeys k hk
    rw [compress_fst_incr, hch, hdel]
    rfl

/-- Witness for C3: a second run over an unchanged single-file list (its
fingerprint matches) with no stale keys produces only the metadata member
with empty changed and deleted lists. -/
theorem compress_archive_layout_witness :
    (compress "/h" fsC hfC true [("a", ⟨1, 2, "h"⟩)] ["a"]).1
      = [TarEntry.meta ⟨"incremental", [], []⟩] :=
  (compress_archive_layout "/h" fsC hfC [("a", ⟨1, 2, "h"⟩)] ["a"]).2.2.2
    (by decide) (by decide)

/-- Python string comparison is irreflexive. -/
theorem lexLt_irrefl (l : List Char) : lexLt l l = false := by
  induction l with
  | nil => rfl
  | cons c cs ih => simp [lexLt, ih]

/-- Python string comparison is transitive. -/
theorem lexLt_trans : ∀ a b c : List Char,
    lexLt a b = true → lexLt b c = true → lexLt a c = true := by
  intro a
  induction a with
  | nil =>
    intro b c hab hbc
    cases c with
    | nil =>
      cases b with
      | nil => simp [lexLt] at hab
      | cons bb bs => simp [lexLt] at hbc
    | cons cc cs => rfl
  | cons aa as ih =>
    intro b c hab hbc
    cases b with
    | nil => simp [lexLt] at hab
    | cons bb bs =>
      cases c with
      | nil => simp [lexLt] at hbc
      | cons cc cs =>
        simp only [lexLt] at hab hbc ⊢
        by_cases h1 : aa < bb
        · by_cases h2 : bb < cc
          · simp [lt_trans h1 h2]
          · rw [if_neg h2] at hbc
            by_cases h3 : bb = cc
            · subst h3
              simp [h1]
            · rw [if_neg h3] at hbc
              exact absurd hbc (by simp)
        · rw [if_neg h1] at hab
          by_cases h4 : aa = bb
          · subst h4
            rw [if_pos rfl] at hab
            by_cases h2 : aa < cc
            · simp [h2]
            · rw [if_neg h2] at hbc
              by_cases h3 : aa = cc
              · rw [if_pos h3] at hbc
                subst h3
                have hrec := ih bs cs hab hbc
                simp [hrec]
              · rw [if_neg h3] at hbc
                exact absurd hbc (by simp)
          · rw [if_neg h4] at hab
            exact absurd hab (by simp)

/-- Descending insertion never produces the empty list. -/
theorem sortDescInsert_ne_nil (x : String) (l : List String) :
    sortDescInsert x l ≠ [] := by
  cases l with
  | nil => simp [sortDescInsert]
  | cons y ys =>
    simp only [sortDescInsert]
    split <;> simp

/-- The descending sort is empty exactly on the empty list. -/
theorem sortDesc_eq_nil_iff (l : List String) : sortDesc l = [] ↔ l = [] := by
  cases l with
  | nil => simp [sortDesc]
  | cons x xs =>
    simp only [sortDesc]
    constructor
    · intro h
      exact absurd h (sortDescInsert_ne_nil x (sortDesc xs))
    · intro h
      cases h

/-- The head of the descending sort is a member of the input and no input
element is strictly greater than it. -/
theorem sortDesc_head_max : ∀ (l : List String) (m : String) (rest : List String),
    sortDesc l = m :: rest → m ∈ l ∧ ∀ e ∈ l, lexLt m.data e.data = false := by
  intro l
  induction l with
  | nil =>
    intro m rest h
    simp [sortDesc] at h
  | cons x xs ih =>
    intro m rest h
    simp only [sortDesc] at h
    rcases hs : sortDesc xs with _ | ⟨y, ys⟩
    · rw [hs] at h
      simp only [sortDescInsert, List.cons.injEq] at h
      obtain ⟨hm, _⟩ := h
      subst hm
      have hxs : xs = [] := (sortDesc_eq_nil_iff xs).mp hs
      subst hxs
      refine ⟨List.mem_cons_self _ _, ?_⟩
      intro e he
      have he' : e = x := by simpa using he
      subst he'
      exact lexLt_irrefl _
    · rw [hs] at h
      obtain ⟨hymem, hymax⟩ := ih y ys hs
      simp only [sortDescInsert] at h
      by_cases hlt : lexLt y.data x.data = true
      · rw [if_pos hlt] at h
        injection h with h1 _
        subst h1
        refine ⟨List.mem_cons_self _ _, ?_⟩
        intro e he
        rcases List.mem_cons.mp he with rfl | he'
        · exact lexLt_irrefl _
        · cases hb : lexLt x.data e.data
          · rfl
          · exfalso
            have htr := lexLt_trans y.data x.data e.data hlt hb
            simp [hymax e he'] at htr
      · rw [if_neg hlt] at h
        injection h with h1 _
        subst h1
        refine ⟨List.mem_cons_of_mem _ hymem, ?_⟩
        intro e he
        rcases List.mem_cons.mp he with rfl | he'
        · simpa using hlt
        · exact hymax e he'

/-- C4 counterexample: the locator's name check is only "length 15 or 21
and contains a dash", not the fixed-width timestamp format.  With siblings
20240102-000000 (valid timestamp, has artifact) and zzzzzzzy-000000 (not a
timestamp, has artifact) below current zzzzzzzz-000000, the code returns
the non-timestamp name instead of skipping it and returning the
format-valid candidate, contradicting the claim. -/
theorem find_previous_timestamp_format_cex :
    findPreviousTimestampDir "/b" ["20240102-000000", "zzzzzzzy-000000"]
        (fun _ => true) (fun _ => true) "zzzzzzzz-000000"
      = some "/b/zzzzzzzy-000000" ∧
    specFixedWidthTimestamp "zzzzzzzy-000000" = false ∧
    specFixedWidthTimestamp "20240102-000000" = true ∧
    findPreviousTimestampDir "/b" ["20240102-000000", "zzzzzzzy-000000"]
        (fun _ => true) (fun _ => true) "zzzzzzzz-000000"
      ≠ some "/b/20240102-000000" :=
  ⟨by decide, by decide, by decide, by decide⟩

/-- C4 amended: the locator returns none exactly when no sibling passes the
filter (directory, lexicographically below the current timestamp, name of
length 15 or 21 containing a dash — the code's basic shape check rather
than full timestamp-format validation — and holding a state artifact), and
otherwise returns the base directory joined with a candidate that no other
candidate lexicographically exceeds. -/
theorem find_previous_timestamp_greatest (base : String) (entries : List String)
    (isDir hasState : String → Bool) (current : String) :
    (findPreviousTimestampDir base entries isDir hasState current = none
      ↔ tsCandidates entries isDir hasState current = []) ∧
    (∀ d, findPreviousTimestampDir base entries isDir hasState current = some d →
      ∃ name ∈ tsCandidates entries isDir hasState current,
        d = pathJoin base name ∧
        ∀ e ∈ tsCandidates entries isDir hasState current,
          lexLt name.data e.data = false) := by
  constructor
  · unfold findPreviousTimestampDir
    rcases hs : sortDesc (tsCandidates entries isDir hasState current) with _ | ⟨m, rest⟩
    · simp only [hs]
      simp [(sortDesc_eq_nil_iff _).mp hs]
    · simp only [hs]
      constructor
      · intro h
        exact absurd h (by simp)
      · intro h
        rw [h] at hs
        simp [sortDesc] at hs
  · intro d hd
    unfold findPreviousTimestampDir at hd
    rcases hs : sortDesc (tsCandidates entries isDir hasState current) with _ | ⟨m, rest⟩
    · simp only [hs] at hd
      exact absurd hd (by simp)
    · simp only [hs, Option.some.injEq] at hd
      obtain ⟨hmem, hmax⟩ :=
        sortDesc_head_max (tsCandidates entries isDir hasState current) m rest hs
      exact ⟨m, hmem, hd.symm, hmax⟩

/-- Witness for C4 amended, on the spec's own example: among siblings
20240101-000000 (no artifact), 20240102-000000 (artifact) and the current
20240103-000000, the locator returns /b/20240102-000000, which is a
candidate no other candidate exceeds. -/
theorem find_previous_timestamp_greatest_witness :
    ∃ name ∈ tsCandidates ["20240101-000000", "20240102-000000", "20240103-000000"]
        (fun _ => true) (fun e => e == "20240102-000000") "20240103-000000",
      "/b/20240102-000000" = pathJoin "/b" name ∧
      ∀ e ∈ tsCandidates ["20240101-000000", "20240102-000000", "20240103-000000"]
          (fun _ => true) (fun e => e == "20240102-000000") "20240103-000000",
        lexLt name.data e.data = false :=
  (find_previous_timestamp_greatest "/b"
      ["20240101-000000", "20240102-000000", "20240103-000000"]
      (fun _ => true) (fun e => e == "20240102-000000") "20240103-000000").2
    "/b/20240102-000000" (by decide)
